import Mathlib

/-!
Shallow embedding of the `paca` download core (`paca-core/src/download/`):
model-reference parsing, shard detection, tree-listing resolution, cache
filename flattening, entity-tag freshness checking, endpoint resolution and
the per-file / per-model download orchestration.  Rust strings are embedded
as Lean `String`s (with helper operations mirroring the `std` string
operations used by the source), file-system and network effects as explicit
oracle parameters, and fallible operations as `Except`.
-/

namespace Paca

/-! ### String helpers mirroring the Rust std operations used by the source -/

/-- Embeds Rust `str::split_once(c)`: split at the first occurrence of the
character `c`, returning the parts before and after it. -/
def splitOnce (c : Char) : List Char → Option (List Char × List Char)
  | [] => none
  | x :: xs =>
    if x = c then some ([], xs)
    else (splitOnce c xs).map (fun p => (x :: p.1, p.2))

/-- Embeds Rust `str::rsplit_once(sep)`: split at the last occurrence of the
(multi-character) separator `sep`. -/
def rsplitOnce (sep : List Char) : List Char → Option (List Char × List Char)
  | [] => none
  | x :: xs =>
    match rsplitOnce sep xs with
    | some (pre, post) => some (x :: pre, post)
    | none =>
      if (x :: xs).take sep.length = sep then some ([], (x :: xs).drop sep.length)
      else none

/-- Embeds Rust `str::strip_suffix(suf)`: remove a trailing `suf` if present. -/
def stripSuffix (suf xs : List Char) : Option (List Char) :=
  if suf.length ≤ xs.length ∧ xs.drop (xs.length - suf.length) = suf then
    some (xs.take (xs.length - suf.length))
  else none

/-- Embeds Rust `str::ends_with(suf)`. -/
def strEndsWith (s suf : String) : Bool :=
  (stripSuffix suf.toList s.toList).isSome

/-- Numeric value of an ASCII digit character. -/
def digitVal (c : Char) : Nat := c.toNat - 48

/-- Embeds Rust `str::parse::<usize>()` (64-bit target): an optional leading
plus sign followed by at least one ASCII digit, failing on overflow past
`usize::MAX = 2^64 - 1`. -/
def parseUsize (xs : List Char) : Option Nat :=
  let ds := match xs with
    | '+' :: rest => rest
    | other => other
  if ds ≠ [] ∧ ds.all (fun c => c.isDigit) then
    let v := ds.foldl (fun a c => a * 10 + digitVal c) 0
    if v < 2 ^ 64 then some v else none
  else none

instance {ε α : Type} [DecidableEq ε] [DecidableEq α] : DecidableEq (Except ε α)
  | .ok a, .ok b =>
    if h : a = b then isTrue (by rw [h]) else isFalse (by intro hh; cases hh; exact h rfl)
  | .ok _, .error _ => isFalse (by intro h; cases h)
  | .error _, .ok _ => isFalse (by intro h; cases h)
  | .error a, .error b =>
    if h : a = b then isTrue (by rw [h]) else isFalse (by intro hh; cases hh; exact h rfl)

/-! ### `model_ref.rs`: the reference parser -/

/-- `ModelRef` from `model_ref.rs` (field order as in the source). -/
structure ModelRef where
  model : String
  owner : String
  tag : String
  deriving DecidableEq, Repr

/-- `ModelRefError` from `error.rs`. -/
inductive ModelRefError where
  | missingTag
  | missingOwner
  deriving DecidableEq, Repr

/-- Embeds `ModelRef::from_str`: split at the first `:` into repo and tag,
then split the repo at the first `/` into owner and model. -/
def from_str (s : String) : Except ModelRefError ModelRef :=
  match splitOnce ':' s.toList with
  | none => .error .missingTag
  | some (repoPart, tagPart) =>
    match splitOnce '/' repoPart with
    | none => .error .missingOwner
    | some (ownerPart, modelPart) =>
      .ok ⟨String.mk modelPart, String.mk ownerPart, String.mk tagPart⟩

/-- Embeds the `Display` impl for `ModelRef`: `"{owner}/{model}:{tag}"`. -/
def ModelRef.display (r : ModelRef) : String :=
  r.owner ++ "/" ++ r.model ++ ":" ++ r.tag

/-- Embeds `ModelRef::repo`: `"{owner}/{model}"`. -/
def ModelRef.repo (r : ModelRef) : String :=
  r.owner ++ "/" ++ r.model

/-! ### `manifest.rs`: shard detection and tree-listing resolution -/

/-- Embeds `shard_count` from `manifest.rs`: strip the `.gguf` suffix, split
the stem at the last `-of-`, and parse what follows as a `usize`. -/
def shard_count (filename : String) : Option Nat :=
  match stripSuffix ".gguf".toList filename.toList with
  | none => none
  | some stem =>
    match rsplitOnce "-of-".toList stem with
    | none => none
    | some (_, post) => parseUsize post

/-- `GgufFile` from `manifest.rs`. -/
structure GgufFile where
  filename : String
  size : Nat
  deriving DecidableEq, Repr

/-- `TreeEntry` from `manifest.rs` (one entry of the tree-listing response). -/
structure TreeEntry where
  path : String
  size : Nat
  deriving DecidableEq, Repr

/-- Lexicographic order on character lists by codepoint, which on UTF-8 data
coincides with the byte-wise `Ord` that Rust `String` sorting uses. -/
def charListLe : List Char → List Char → Bool
  | [], _ => true
  | _ :: _, [] => false
  | a :: xs, b :: ys => if a = b then charListLe xs ys else decide (a.toNat < b.toNat)

/-- The sort key relation of `gguf_files.sort_by_key(|file| file.filename.clone())`. -/
def ggufLe (a b : GgufFile) : Prop :=
  charListLe a.filename.toList b.filename.toList = true

instance : DecidableRel ggufLe :=
  fun a b =>
    inferInstanceAs (Decidable (charListLe a.filename.toList b.filename.toList = true))

/-- The pure core of `fetch_tree_files`: filter the listing entries to those
whose path ends in `.gguf`, map to `GgufFile`, and sort by filename
ascending (`sort_by_key`, a stable sort under the total string order). -/
def tree_to_gguf (entries : List TreeEntry) : List GgufFile :=
  List.insertionSort ggufLe
    ((entries.filter (fun e => strEndsWith e.path ".gguf")).map
      (fun e => ⟨e.path, e.size⟩))

/-- Embeds `fetch_tree_files` with the HTTP + JSON layer abstracted as an
`Except`-valued oracle: a transport or parse failure propagates as an error,
a successful listing is resolved via `tree_to_gguf`. -/
def fetch_tree_files (resp : Except Unit (List TreeEntry)) :
    Except Unit (List GgufFile) :=
  match resp with
  | .error e => .error e
  | .ok entries => .ok (tree_to_gguf entries)

/-- Embeds the file-resolution step of `fetch_manifest` (lines 67-73): if the
declared filename carries a shard suffix, consult the tree listing; otherwise
the list is the single declared file. -/
def manifest_files (rfilename : String) (size : Nat)
    (tree : Except Unit (List TreeEntry)) : Except Unit (List GgufFile) :=
  match shard_count rfilename with
  | some _ => fetch_tree_files tree
  | none => .ok [⟨rfilename, size⟩]

/-- Embeds `manifest_filename` from `manifest.rs`. -/
def manifest_filename (r : ModelRef) : String :=
  "manifest=" ++ r.owner ++ "=" ++ r.model ++ "=" ++ r.tag ++ ".json"

/-! ### `mod.rs`: cache naming, validator matching, headers, endpoint -/

/-- The flattening step of `cache_filename`: Rust
`gguf_file.replace('/', "_")`. -/
def flattenSlash (s : String) : String :=
  String.mk (s.toList.map (fun c => if c = '/' then '_' else c))

/-- Embeds `cache_filename` from `mod.rs`:
`"{owner}_{model}_{flattened}"`. -/
def cache_filename (r : ModelRef) (gguf : String) : String :=
  r.owner ++ "_" ++ r.model ++ "_" ++ flattenSlash gguf

/-- Embeds `etag_matches` from `mod.rs`: the sidecar read result is passed in
as `stored` (`none` models a missing sidecar or any read error, which
`unwrap_or(false)` turns into a non-match); on a successful read the stored
text must equal the remote etag exactly. -/
def etag_matches (stored : Option String) (remote : String) : Bool :=
  match stored with
  | some localEtag => localEtag == remote
  | none => false

/-- Embeds `get_model_endpoint` from `endpoint.rs`: the `MODEL_ENDPOINT`
variable if set, else `HF_ENDPOINT` if set, else the hardcoded default. -/
def get_model_endpoint (modelEndpoint hfEndpoint : Option String) : String :=
  match modelEndpoint with
  | some v => v
  | none =>
    match hfEndpoint with
    | some v => v
    | none => "https://huggingface.co"

/-- Embeds `default_headers` from `mod.rs` as an association list: always the
fixed User-Agent; additionally `Authorization: Bearer {token}` whenever the
`HF_TOKEN` variable is set (`if let Ok(token) = env::var("HF_TOKEN")`). -/
def default_headers (hfToken : Option String) : List (String × String) :=
  let base := [("User-Agent", "llama-cpp")]
  match hfToken with
  | some t => base ++ [("Authorization", "Bearer " ++ t)]
  | none => base

/-! ### `mod.rs`: the transfer engine and the orchestrator

The per-file file-system and network state is an explicit oracle record; one
invocation of `download_model` reads it per constituent file. -/

/-- Result of one HTTP GET in the transfer engine: whether the status was
`206 Partial Content`, and how many body bytes were streamed. -/
structure HttpResp where
  status206 : Bool
  bodyLen : Nat
  deriving DecidableEq, Repr

/-- Per-file environment for one `download_model` step.
`actualSize` is the ground-truth size of the cache file (`none` = absent, so
`exists()` is `actualSize.isSome`); `metadataOk` is whether the
`fs::metadata` call succeeds; `storedEtag` the sidecar read result;
`headEtag` the `fetch_etag` result; `http range` the outcome of a GET with
the given optional `Range` start; `saveEtagOk` whether `save_etag`'s write
succeeds. -/
structure Env where
  actualSize : Option Nat
  metadataOk : Bool
  storedEtag : Option String
  headEtag : Except Unit String
  http : Option Nat → Except Unit HttpResp
  saveEtagOk : Bool

/-- Observable actions of one `download_model` invocation. -/
inductive Event where
  | headReq (url : String)
  | getReq (url : String) (range : Option Nat)
  | etagWrite (url : String) (etag : String)
  | manifestWrite
  deriving DecidableEq, Repr

/-- Embeds `download_file` from `mod.rs`: a `Range: bytes={resume_from}-`
header exactly when `resume_from > 0`; on a `206` response the destination is
opened for append (failing if it is absent), so the final size is the actual
existing size plus the body length; on any other success status the
destination is created fresh (truncated), so the final size is the body
length.  Returns the range used and the final file size (or an error). -/
def download_file (env : Env) (resume_from : Nat) :
    Option Nat × Except Unit Nat :=
  let range := if 0 < resume_from then some resume_from else none
  match env.http range with
  | .error e => (range, .error e)
  | .ok resp =>
    if resp.status206 then
      match env.actualSize with
      | some a => (range, .ok (a + resp.bodyLen))
      | none => (range, .error ())
    else (range, .ok resp.bodyLen)

/-- The `existing_size` binding of `download_model`:
`fs::metadata(&file_path).map(|m| m.len()).unwrap_or(0)` — the actual size
when the metadata call succeeds, `0` when it fails. -/
def existingSize (env : Env) : Nat :=
  if env.metadataOk then env.actualSize.getD 0 else 0

/-- Embeds the per-file body of the loop in `download_model` (lines 64-92):
probe the etag; if the file exists and the stored validator matches, skip
when the metadata size already covers the declared size and otherwise resume
from that size; else persist the new validator and transfer from offset 0.
Returns the emitted events and the final local file size (or an error). -/
def process_file (env : Env) (url : String) (gf : GgufFile) :
    List Event × Except Unit Nat :=
  match env.headEtag with
  | .error e => ([.headReq url], .error e)
  | .ok remote =>
    if env.actualSize.isSome && etag_matches env.storedEtag remote then
      if gf.size ≤ existingSize env then
        ([.headReq url], .ok (existingSize env))
      else
        ([.headReq url, .getReq url (download_file env (existingSize env)).1],
          (download_file env (existingSize env)).2)
    else
      if env.saveEtagOk then
        ([.headReq url, .etagWrite url remote, .getReq url (download_file env 0).1],
          (download_file env 0).2)
      else
        ([.headReq url, .etagWrite url remote], .error ())

/-- The resolve URL built in `download_model`:
`"{endpoint}/{repo}/resolve/main/{filename}"`. -/
def resolve_url (endpoint repo filename : String) : String :=
  endpoint ++ "/" ++ repo ++ "/resolve/main/" ++ filename

/-- The `for gguf_file in &manifest.gguf_files` loop of `download_model`:
process each file in manifest order, stopping at the first error, and collect
the final sizes of the cached files (the model of the returned paths). -/
def download_model_go (fenv : String → Env) (endpoint : String) (r : ModelRef) :
    List GgufFile → List Event × Except Unit (List Nat)
  | [] => ([], .ok [])
  | gf :: rest =>
    match process_file (fenv (cache_filename r gf.filename))
        (resolve_url endpoint r.repo gf.filename) gf with
    | (evs, .error e) => (evs, .error e)
    | (evs, .ok sz) =>
      match download_model_go fenv endpoint r rest with
      | (evs2, res2) => (evs ++ evs2, res2.map (fun szs => sz :: szs))

/-- Embeds `download_model` after manifest resolution (lines 62-97): run the
per-file loop, and only if every file succeeded call `save_manifest`
(modelled by the `manifestWrite` event, whose own write may fail as
`manifestOk` dictates). -/
def download_model (fenv : String → Env) (endpoint : String) (r : ModelRef)
    (manifestOk : Bool) (files : List GgufFile) :
    List Event × Except Unit (List Nat) :=
  match download_model_go fenv endpoint r files with
  | (evs, .error e) => (evs, .error e)
  | (evs, .ok szs) =>
    if manifestOk then (evs ++ [.manifestWrite], .ok szs)
    else (evs ++ [.manifestWrite], .error ())

/-! ### Helper lemmas about the string operations -/

theorem toList_append (a b : String) : (a ++ b).toList = a.toList ++ b.toList := rfl

theorem mk_toList (s : String) : String.mk s.toList = s := rfl

theorem splitOnce_eq_some {c : Char} :
    ∀ {xs a b : List Char}, splitOnce c xs = some (a, b) →
      xs = a ++ c :: b ∧ c ∉ a := by
  intro xs
  induction xs with
  | nil => intro a b h; simp [splitOnce] at h
  | cons x xs ih =>
    intro a b h
    by_cases hx : x = c
    · rw [splitOnce, if_pos hx] at h
      simp only [Option.some.injEq, Prod.mk.injEq] at h
      obtain ⟨ha, hb⟩ := h
      refine ⟨?_, ?_⟩
      · rw [← ha, ← hb, hx]; rfl
      · rw [← ha]; simp
    · rw [splitOnce, if_neg hx] at h
      cases hp : splitOnce c xs with
      | none => rw [hp] at h; simp at h
      | some p =>
        obtain ⟨p1, p2⟩ := p
        rw [hp] at h
        simp only [Option.map_some', Option.some.injEq, Prod.mk.injEq] at h
        obtain ⟨h1, h2⟩ := h
        obtain ⟨hxs, hmem⟩ := ih hp
        subst h1; subst h2
        refine ⟨by rw [hxs]; rfl, ?_⟩
        intro hin
        rcases List.mem_cons.mp hin with h | h
        · exact hx h.symm
        · exact hmem h

theorem splitOnce_append {c : Char} :
    ∀ {a : List Char} (b : List Char), c ∉ a → splitOnce c (a ++ c :: b) = some (a, b) := by
  intro a
  induction a with
  | nil => intro b _; simp [splitOnce]
  | cons x xs ih =>
    intro b hmem
    have hx : ¬x = c := fun h => hmem (by rw [← h]; exact List.mem_cons_self x xs)
    have hxs : c ∉ xs := fun h => hmem (List.mem_cons_of_mem x h)
    rw [List.cons_append, splitOnce, if_neg hx, ih b hxs]
    rfl

theorem stripSuffix_eq_some {suf xs stem : List Char}
    (h : stripSuffix suf xs = some stem) : xs = stem ++ suf := by
  unfold stripSuffix at h
  split_ifs at h with hc
  obtain ⟨-, hdrop⟩ := hc
  obtain rfl : xs.take (xs.length - suf.length) = stem := by injection h
  conv_lhs => rw [← List.take_append_drop (xs.length - suf.length) xs]
  rw [hdrop]

theorem rsplitOnce_eq_some {sep : List Char} :
    ∀ {xs pre post : List Char}, rsplitOnce sep xs = some (pre, post) →
      xs = pre ++ sep ++ post := by
  intro xs
  induction xs with
  | nil => intro pre post h; simp [rsplitOnce] at h
  | cons x xs ih =>
    intro pre post h
    rw [rsplitOnce] at h
    cases hr : rsplitOnce sep xs with
    | some p =>
      obtain ⟨p1, p2⟩ := p
      simp only [hr, Option.some.injEq, Prod.mk.injEq] at h
      obtain ⟨h1, h2⟩ := h
      subst h1; subst h2
      have hx := ih hr
      rw [List.cons_append, List.cons_append, ← hx]
    | none =>
      simp only [hr] at h
      by_cases htake : (x :: xs).take sep.length = sep
      · rw [if_pos htake] at h
        simp only [Option.some.injEq, Prod.mk.injEq] at h
        obtain ⟨h1, h2⟩ := h
        subst h1; subst h2
        conv_lhs => rw [← List.take_append_drop sep.length (x :: xs)]
        rw [htake]
        simp
      · rw [if_neg htake] at h
        exact absurd h (by simp)

theorem charListLe_total : ∀ xs ys : List Char, charListLe xs ys = true ∨ charListLe ys xs = true := by
  intro xs
  induction xs with
  | nil => intro ys; exact Or.inl rfl
  | cons a xs ih =>
    intro ys
    cases ys with
    | nil => exact Or.inr rfl
    | cons b ys =>
      by_cases hab : a = b
      · rcases ih ys with h | h
        · exact Or.inl (by rw [charListLe, if_pos hab]; exact h)
        · exact Or.inr (by rw [charListLe, if_pos hab.symm]; exact h)
      · have hba : ¬b = a := fun h => hab h.symm
        have hne : a.toNat ≠ b.toNat := fun h =>
          hab (Char.ext (UInt32.eq_of_val_eq (Fin.ext h)))
        rcases Nat.lt_or_ge a.toNat b.toNat with h | h
        · exact Or.inl (by rw [charListLe, if_neg hab]; exact decide_eq_true h)
        · have : b.toNat < a.toNat := Nat.lt_of_le_of_ne h (fun he => hne he.symm)
          exact Or.inr (by rw [charListLe, if_neg hba]; exact decide_eq_true this)

theorem charListLe_trans :
    ∀ xs ys zs : List Char, charListLe xs ys = true → charListLe ys zs = true →
      charListLe xs zs = true := by
  intro xs
  induction xs with
  | nil => intro ys zs _ _; rfl
  | cons a xs ih =>
    intro ys zs hxy hyz
    cases ys with
    | nil => rw [charListLe] at hxy; exact absurd hxy (by simp)
    | cons b ys =>
      cases zs with
      | nil => rw [charListLe] at hyz; exact absurd hyz (by simp)
      | cons c zs =>
        rw [charListLe] at hxy hyz ⊢
        by_cases hab : a = b
        · rw [if_pos hab] at hxy
          by_cases hbc : b = c
          · rw [if_pos hbc] at hyz
            rw [if_pos (hab.trans hbc)]
            exact ih ys zs hxy hyz
          · rw [if_neg hbc] at hyz
            have hlt : b.toNat < c.toNat := of_decide_eq_true hyz
            have hac : ¬a = c := fun h => hbc (by rw [← hab]; exact h)
            rw [if_neg hac]
            exact decide_eq_true (hab ▸ hlt)
        · rw [if_neg hab] at hxy
          have hltab : a.toNat < b.toNat := of_decide_eq_true hxy
          by_cases hbc : b = c
          · have hac : ¬a = c := fun h => hab (by rw [hbc]; exact h)
            rw [if_neg hac]
            exact decide_eq_true (hbc ▸ hltab)
          · rw [if_neg hbc] at hyz
            have hltbc : b.toNat < c.toNat := of_decide_eq_true hyz
            have hltac := Nat.lt_trans hltab hltbc
            have hac : ¬a = c := fun h => by
              rw [h] at hltac; exact Nat.lt_irrefl _ hltac
            rw [if_neg hac]
            exact decide_eq_true hltac

instance : IsTotal GgufFile ggufLe :=
  ⟨fun a b => charListLe_total a.filename.toList b.filename.toList⟩

instance : IsTrans GgufFile ggufLe :=
  ⟨fun a b c => charListLe_trans a.filename.toList b.filename.toList c.filename.toList⟩

/-! ### Claim theorems: reference parser -/

/-- C9: for every successfully parsed reference string, re-serializing the
resulting `ModelRef` as `"{owner}/{model}:{tag}"` yields the original input;
moreover the split is at the first `:` and the first `/`: the owner contains
neither `:` nor `/`, and the model contains no `:`. -/
theorem model_ref_roundtrip :
    ∀ (s : String) (r : ModelRef), from_str s = .ok r →
      r.display = s ∧ ':' ∉ r.owner.toList ∧ '/' ∉ r.owner.toList ∧
        ':' ∉ r.model.toList := by
  intro s r h
  unfold from_str at h
  cases h1 : splitOnce ':' s.toList with
  | none => simp only [h1] at h; exact Except.noConfusion h
  | some p =>
    obtain ⟨repoPart, tagPart⟩ := p
    simp only [h1] at h
    cases h2 : splitOnce '/' repoPart with
    | none => simp only [h2] at h; exact Except.noConfusion h
    | some q =>
      obtain ⟨ownerPart, modelPart⟩ := q
      simp only [h2, Except.ok.injEq] at h
      subst h
      obtain ⟨hs, hrepo⟩ := splitOnce_eq_some h1
      obtain ⟨hrepo_eq, howner⟩ := splitOnce_eq_some h2
      rw [hrepo_eq] at hrepo
      refine ⟨?_, ?_, ?_, ?_⟩
      · apply String.toList_inj.mp
        show (String.mk ownerPart ++ "/" ++ String.mk modelPart ++ ":" ++
          String.mk tagPart).toList = s.toList
        rw [hs, hrepo_eq]
        simp [toList_append, List.append_assoc]
      · exact fun hm => hrepo (List.mem_append_left _ hm)
      · exact howner
      · exact fun hm => hrepo (List.mem_append_right _ (List.mem_cons_of_mem _ hm))

/-- C9 witness: the roundtrip theorem applied at `"unsloth/GLM:Q2"`. -/
theorem model_ref_roundtrip_witness :
    ModelRef.display ⟨"GLM", "unsloth", "Q2"⟩ = "unsloth/GLM:Q2" ∧
      ':' ∉ ("unsloth" : String).toList ∧ '/' ∉ ("unsloth" : String).toList ∧
      ':' ∉ ("GLM" : String).toList :=
  model_ref_roundtrip "unsloth/GLM:Q2" ⟨"GLM", "unsloth", "Q2"⟩ (by decide)

/-- C7 counterexample: the parser accepts `"/:"`, producing a reference whose
owner, model and tag are all empty — there is no non-emptiness validation. -/
theorem from_str_accepts_all_empty :
    from_str "/:" = .ok ⟨"", "", ""⟩ := by decide

/-- C7 (amended): the parser only requires the two separators to be present
(a `:` and, before it, a `/`); every owner/model/tag combination — including
empty components — built around them parses back to exactly those
components. -/
theorem from_str_no_emptiness_check :
    ∀ owner model tag : String,
      ':' ∉ owner.toList → '/' ∉ owner.toList → ':' ∉ model.toList →
      from_str (owner ++ "/" ++ model ++ ":" ++ tag) = .ok ⟨model, owner, tag⟩ := by
  intro owner model tag hco hso hcm
  unfold from_str
  have hlist : (owner ++ "/" ++ model ++ ":" ++ tag).toList
      = (owner.toList ++ '/' :: model.toList) ++ ':' :: tag.toList := by
    simp [toList_append, List.append_assoc,
      show ("/" : String).toList = ['/'] from rfl,
      show (":" : String).toList = [':'] from rfl]
  rw [hlist]
  have hmem : ':' ∉ owner.toList ++ '/' :: model.toList := by
    intro hm
    rcases List.mem_append.mp hm with h | h
    · exact hco h
    · rcases List.mem_cons.mp h with h | h
      · exact absurd h (by decide)
      · exact hcm h
  simp only [splitOnce_append _ hmem]
  simp only [splitOnce_append _ hso]
  rfl

/-- C7 witness: the amended theorem applied at three empty components —
`"/:"` parses successfully to the all-empty reference. -/
theorem from_str_no_emptiness_check_witness :
    from_str ("" ++ "/" ++ "" ++ ":" ++ "") = .ok ⟨"", "", ""⟩ :=
  from_str_no_emptiness_check "" "" "" (by decide) (by decide) (by decide)

/-! ### Claim theorems: shard detection -/

/-- C5 counterexample: shard detection also triggers on filenames without
fixed-width zero-padded indices — `"x-of-3.gguf"` has no `<NNNNN>` index at
all, yet `shard_count` reports 3 shards (and a width-1 index reports 2). -/
theorem shard_count_ignores_padding :
    shard_count "x-of-3.gguf" = some 3 ∧ shard_count "model-1-of-2.gguf" = some 2 :=
  ⟨by decide, by decide⟩

/-- C5 (amended): shard detection triggers exactly when the filename ends in
`.gguf` and the stem splits at a last `-of-` whose remainder parses as an
unsigned integer — zero padding and fixed width are not required; the three
example values from the spec hold, a non-`.gguf` extension or a non-numeric
count does not trigger, and every triggering filename decomposes as
`<pre>-of-<count>.gguf`. -/
theorem shard_count_spec :
    shard_count "model.gguf" = none ∧
    shard_count "dir/model-00001-of-00015.gguf" = some 15 ∧
    shard_count "model-00001-of-00002.gguf" = some 2 ∧
    shard_count "model-00001-of-00002.txt" = none ∧
    shard_count "model-00001-of-x.gguf" = none ∧
    ∀ (f : String) (n : Nat), shard_count f = some n →
      ∃ pre post : List Char,
        f.toList = pre ++ "-of-".toList ++ post ++ ".gguf".toList ∧
        parseUsize post = some n := by
  refine ⟨by decide, by decide, by decide, by decide, by decide, ?_⟩
  intro f n h
  unfold shard_count at h
  cases hs : stripSuffix ".gguf".toList f.toList with
  | none => simp only [hs] at h; exact Option.noConfusion h
  | some stem =>
    simp only [hs] at h
    cases hr : rsplitOnce "-of-".toList stem with
    | none => simp only [hr] at h; exact Option.noConfusion h
    | some p =>
      obtain ⟨p1, p2⟩ := p
      simp only [hr] at h
      refine ⟨p1, p2, ?_, h⟩
      have h1 := stripSuffix_eq_some hs
      have h2 := rsplitOnce_eq_some hr
      rw [h1, h2]

/-- C5 witness: the decomposition branch of the amended theorem applied at
the two-shard example filename. -/
theorem shard_count_spec_witness :
    ∃ pre post : List Char,
      ("model-00001-of-00002.gguf" : String).toList
        = pre ++ "-of-".toList ++ post ++ ".gguf".toList ∧
      parseUsize post = some 2 :=
  shard_count_spec.2.2.2.2.2 "model-00001-of-00002.gguf" 2 (by decide)

/-! ### Claim theorems: validator matching -/

/-- C3 counterexample: an empty probed entity tag does match a stored
validator that is itself the empty string (as saved by a previous run
against a registry that omits the header), so the cached copy is treated as
current — not "never matches". -/
theorem empty_etag_matches_stored_empty : etag_matches (some "") "" = true := by decide

/-- C3 (amended): an empty probed entity tag matches exactly a stored
empty-string validator; only when no validator sidecar is readable (in
particular on the first run) does the match fail and force a fetch. -/
theorem etag_empty_match_spec :
    (∀ stored : Option String, etag_matches stored "" = true ↔ stored = some "") ∧
    etag_matches none "" = false := by
  refine ⟨?_, rfl⟩
  intro stored
  cases stored with
  | none => simp [etag_matches]
  | some s => simp [etag_matches]

/-- C3 witness: the amended characterization applied at the stored empty
validator. -/
theorem etag_empty_match_spec_witness : etag_matches (some "") "" = true :=
  (etag_empty_match_spec.1 (some "")).mpr rfl

/-! ### Claim theorems: cache filename flattening -/

/-- C4 counterexample: the flattening is not injective — the artifact
filenames `"c/d"` and `"c_d"` are distinct but map to the same cache
filename, and so do distinct `(owner, model)` pairs whose components trade
an underscore. -/
theorem cache_filename_not_injective :
    cache_filename ⟨"b", "a", "t"⟩ "c/d" = cache_filename ⟨"b", "a", "t"⟩ "c_d" ∧
      ("c/d" : String) ≠ "c_d" ∧
      cache_filename ⟨"c", "a_b", "t"⟩ "d" = cache_filename ⟨"b_c", "a", "t"⟩ "d" ∧
      (ModelRef.mk "c" "a_b" "t" ≠ ModelRef.mk "b_c" "a" "t") := by
  refine ⟨by decide, by decide, by decide, by decide⟩

/-- C4 (amended): flattening the artifact filename never leaves a path
separator in it (the spec's worked example holds), and the full cache
filename contains no separator whenever owner and model contain none — but
the map is not injective over distinct triples. -/
theorem cache_filename_no_path_separator :
    cache_filename ⟨"M", "unsloth", "Q"⟩ "BF16/x-00001-of-00002.gguf"
        = "unsloth_M_BF16_x-00001-of-00002.gguf" ∧
    ∀ (r : ModelRef) (f : String),
      '/' ∉ (flattenSlash f).toList ∧
      ('/' ∉ r.owner.toList → '/' ∉ r.model.toList →
        '/' ∉ (cache_filename r f).toList) := by
  refine ⟨by decide, ?_⟩
  intro r f
  have hflat : '/' ∉ (flattenSlash f).toList := by
    intro hm
    simp only [flattenSlash] at hm
    rcases List.mem_map.mp hm with ⟨c, -, hc⟩
    by_cases h : c = '/'
    · rw [if_pos h] at hc; exact absurd hc (by decide)
    · rw [if_neg h] at hc; exact h hc
  refine ⟨hflat, ?_⟩
  intro ho hm hmem
  simp only [cache_filename, toList_append] at hmem
  rcases List.mem_append.mp hmem with hmem | hmem
  · rcases List.mem_append.mp hmem with hmem | hmem
    · rcases List.mem_append.mp hmem with hmem | hmem
      · rcases List.mem_append.mp hmem with hmem | hmem
        · exact ho hmem
        · exact absurd hmem (by decide)
      · exact hm hmem
    · exact absurd hmem (by decide)
  · exact hflat hmem

/-- C4 witness: the separator-freedom branch applied at the spec's sharded
example filename. -/
theorem cache_filename_no_path_separator_witness :
    '/' ∉ (cache_filename ⟨"M", "unsloth", "Q"⟩ "BF16/x-00001-of-00002.gguf").toList :=
  (cache_filename_no_path_separator.2 ⟨"M", "unsloth", "Q"⟩
    "BF16/x-00001-of-00002.gguf").2 (by decide) (by decide)

/-! ### Claim theorems: endpoint resolution and headers -/

/-- C8 counterexample: a set-but-empty credential variable does attach an
Authorization header (`"Bearer "`), contradicting "only if non-empty". -/
theorem empty_token_attaches_auth :
    default_headers (some "") =
      [("User-Agent", "llama-cpp"), ("Authorization", "Bearer ")] := by decide

/-- C8 (amended): endpoint resolution prefers the model-endpoint override,
then the registry-mirror override, then the hardcoded default; the bearer
Authorization header is attached exactly when the credential variable is set
— including when it is set to the empty string. -/
theorem endpoint_and_auth_spec :
    (∀ (v : String) (h : Option String), get_model_endpoint (some v) h = v) ∧
    (∀ v : String, get_model_endpoint none (some v) = v) ∧
    get_model_endpoint none none = "https://huggingface.co" ∧
    (∀ tok : Option String,
      (∃ v, ("Authorization", v) ∈ default_headers tok) ↔ tok.isSome = true) := by
  refine ⟨fun v h => rfl, fun v => rfl, rfl, ?_⟩
  intro tok
  cases tok with
  | none =>
    simp only [default_headers, Option.isSome_none]
    constructor
    · rintro ⟨v, hv⟩
      rcases List.mem_cons.mp hv with h | h
      · exact absurd (show ("Authorization" : String) = "User-Agent" from
          congrArg Prod.fst h) (by decide)
      · exact absurd h (List.not_mem_nil _)
    · intro h; exact absurd h (by decide)
  | some t =>
    simp only [default_headers, Option.isSome_some]
    constructor
    · intro _; trivial
    · intro _
      exact ⟨"Bearer " ++ t, by
        apply List.mem_append_right
        exact List.mem_singleton.mpr rfl⟩

/-- C8 witness: precedence of the model-endpoint override applied at
concrete values. -/
theorem endpoint_and_auth_spec_witness :
    get_model_endpoint (some "https://model.example.com") (some "https://hf.example.com")
      = "https://model.example.com" :=
  endpoint_and_auth_spec.1 "https://model.example.com" (some "https://hf.example.com")

/-! ### Claim theorems: tree-listing resolution -/

/-- C6 counterexample: a successful listing that contains no `.gguf` entry
resolves to a silent `Ok` with an empty shard list — not an error. -/
theorem tree_files_silent_empty :
    fetch_tree_files (.ok [⟨"README.md", 5⟩]) = .ok [] := by decide

/-- C6 (amended): on a successful listing the resolved file list is exactly
the entries whose path ends in `.gguf`, sorted ascending by filename, and a
failed listing propagates as an error — but a listing with no matching
entries yields `Ok []`, not an error. -/
theorem fetch_tree_files_spec :
    (∀ (entries : List TreeEntry) (l : List GgufFile),
        fetch_tree_files (.ok entries) = .ok l →
        List.Sorted ggufLe l ∧
        List.Perm l ((entries.filter (fun e => strEndsWith e.path ".gguf")).map
          (fun e => ⟨e.path, e.size⟩))) ∧
    (∀ e : Unit, fetch_tree_files (.error e) = .error e) := by
  refine ⟨?_, fun e => rfl⟩
  intro entries l h
  simp only [fetch_tree_files, Except.ok.injEq] at h
  subst h
  exact ⟨List.sorted_insertionSort ggufLe _, List.perm_insertionSort ggufLe _⟩

/-- C6 witness: the positive branch applied to the spec's out-of-order
two-shard listing. -/
theorem fetch_tree_files_spec_witness :
    List.Sorted ggufLe
        ([⟨"d/b-00001-of-00002.gguf", 9⟩, ⟨"d/b-00002-of-00002.gguf", 7⟩] :
          List GgufFile) ∧
      List.Perm
        ([⟨"d/b-00001-of-00002.gguf", 9⟩, ⟨"d/b-00002-of-00002.gguf", 7⟩] :
          List GgufFile)
        ((([⟨"d/b-00002-of-00002.gguf", 7⟩, ⟨"d/b-00001-of-00002.gguf", 9⟩] :
            List TreeEntry).filter
              (fun e => strEndsWith e.path ".gguf")).map
          (fun e => ⟨e.path, e.size⟩)) :=
  fetch_tree_files_spec.1
    [⟨"d/b-00002-of-00002.gguf", 7⟩, ⟨"d/b-00001-of-00002.gguf", 9⟩]
    [⟨"d/b-00001-of-00002.gguf", 9⟩, ⟨"d/b-00002-of-00002.gguf", 7⟩]
    (by decide)

/-! ### Helper lemmas about the transfer engine -/

theorem download_file_fst (env : Env) (k : Nat) :
    (download_file env k).1 = if 0 < k then some k else none := by
  unfold download_file
  cases hh : env.http (if 0 < k then some k else none) with
  | error e => simp [hh]
  | ok resp =>
    simp only [hh]
    by_cases h : resp.status206 = true
    · simp only [if_pos h]
      cases env.actualSize <;> rfl
    · simp only [if_neg h]

theorem download_file_resume (env : Env) (k : Nat) (hk : 0 < k) (a n : Nat)
    (hsz : env.actualSize = some a)
    (hh : env.http (some k) = .ok ⟨true, n⟩) :
    download_file env k = (some k, .ok (a + n)) := by
  unfold download_file
  rw [if_pos hk]
  simp [hh, hsz]

theorem download_file_plain (env : Env) (resp : HttpResp)
    (hh : env.http none = .ok resp) (h206 : resp.status206 = false) :
    download_file env 0 = (none, .ok resp.bodyLen) := by
  unfold download_file
  simp [hh, h206]

/-! ### Claim theorems: per-file cache decision -/

/-- C1 counterexample: with an existing local file of size 0, a matching
validator and a declared size of 1024, the transfer is a plain GET with no
`Range` header — not a ranged GET resuming from the current local size. -/
theorem resume_at_zero_plain_get :
    process_file
        ⟨some 0, true, some "E", .ok "E", fun _ => .ok ⟨false, 1024⟩, true⟩
        "u" ⟨"f", 1024⟩
      = ([.headReq "u", .getReq "u" none], .ok 1024) := by decide

/-- C1 (amended): when the local file exists and the stored validator equals
the probed entity tag — (a) a local size at or above the declared size means
no content transfer and the existing file is kept; (b) a smaller *positive*
local size resumes via a ranged GET from exactly that offset (and a partial
response carrying the remaining bytes completes the file to the declared
size); (b0) a local size of 0 transfers via a plain, non-ranged GET; and
(c) a missing file or a validator mismatch writes the new validator and
transfers from offset 0 with a plain GET. -/
theorem process_file_cache_decision :
    ∀ (env : Env) (u : String) (gf : GgufFile) (remote : String),
      env.headEtag = .ok remote →
      ((etag_matches env.storedEtag remote = true →
        ∀ a : Nat, env.actualSize = some a → env.metadataOk = true →
          ((gf.size ≤ a → process_file env u gf = ([.headReq u], .ok a)) ∧
           (a < gf.size → 0 < a →
              (process_file env u gf).1 = [.headReq u, .getReq u (some a)] ∧
              (env.http (some a) = .ok ⟨true, gf.size - a⟩ →
                process_file env u gf
                  = ([.headReq u, .getReq u (some a)], .ok gf.size))) ∧
           (a = 0 → 0 < gf.size →
              (process_file env u gf).1 = [.headReq u, .getReq u none]))) ∧
       ((env.actualSize = none ∨ etag_matches env.storedEtag remote = false) →
        env.saveEtagOk = true →
        (process_file env u gf).1 = [.headReq u, .etagWrite u remote, .getReq u none])) := by
  intro env u gf remote hhead
  constructor
  · intro hmatch a hsz hmeta
    have hcond : (env.actualSize.isSome && etag_matches env.storedEtag remote) = true := by
      rw [hsz, hmatch]; rfl
    have hex : existingSize env = a := by simp [existingSize, hmeta, hsz]
    simp only [process_file, hhead, hcond, if_true, hex]
    refine ⟨?_, ?_, ?_⟩
    · intro hle
      rw [if_pos hle]
    · intro hlt hpos
      have hnle : ¬gf.size ≤ a := Nat.not_le_of_lt hlt
      rw [if_neg hnle]
      constructor
      · rw [download_file_fst, if_pos hpos]
      · intro hhttp
        rw [download_file_resume env a hpos a (gf.size - a) hsz hhttp]
        rw [Nat.add_sub_cancel' (Nat.le_of_lt hlt)]
    · intro ha hszpos
      subst ha
      have hnle : ¬gf.size ≤ 0 := Nat.not_le_of_lt hszpos
      rw [if_neg hnle]
      rw [download_file_fst]
      rfl
  · intro hor hsave
    have hcond : (env.actualSize.isSome && etag_matches env.storedEtag remote) = false := by
      rcases hor with h | h
      · rw [h]; rfl
      · rw [h, Bool.and_false]
    simp only [process_file, hhead, hcond, Bool.false_eq_true, if_false, hsave, if_true]
    rw [download_file_fst]
    rfl

/-- C1 witness: the ranged-resume branch applied at a 512-byte local file
with declared size 1024 — a ranged GET from byte 512 whose partial response
carries the remaining 512 bytes yields a final size of 1024. -/
theorem process_file_cache_decision_witness :
    process_file
        ⟨some 512, true, some "E", .ok "E", fun _ => .ok ⟨true, 512⟩, true⟩
        "u" ⟨"f", 1024⟩
      = ([.headReq "u", .getReq "u" (some 512)], .ok 1024) := by
  have h := process_file_cache_decision
    ⟨some 512, true, some "E", .ok "E", fun _ => .ok ⟨true, 512⟩, true⟩
    "u" ⟨"f", 1024⟩ "E" rfl
  exact ((h.1 (by decide) 512 rfl rfl).2.1 (by decide) (by decide)).2 (by decide)

/-- C10: when the file exists with a matching validator but the metadata
(size) read fails, the size is treated as 0 and any positive declared size
forces a full re-fetch: a plain non-ranged GET whose (non-partial) response
replaces the destination, the final size being exactly the response body
length — nothing is appended to the unverifiable local copy, and no
validator is rewritten. -/
theorem metadata_failure_full_refetch :
    ∀ (env : Env) (u : String) (gf : GgufFile) (remote : String) (a : Nat)
      (resp : HttpResp),
      env.headEtag = .ok remote →
      env.actualSize = some a →
      etag_matches env.storedEtag remote = true →
      env.metadataOk = false →
      0 < gf.size →
      env.http none = .ok resp →
      resp.status206 = false →
      process_file env u gf = ([.headReq u, .getReq u none], .ok resp.bodyLen) := by
  intro env u gf remote a resp hhead hsz hmatch hmeta hpos hhttp h206
  have hcond : (env.actualSize.isSome && etag_matches env.storedEtag remote) = true := by
    rw [hsz, hmatch]; rfl
  have hex : existingSize env = 0 := by simp [existingSize, hmeta]
  have hnle : ¬gf.size ≤ 0 := Nat.not_le_of_lt hpos
  simp only [process_file, hhead, hcond, if_true, hex, if_neg hnle]
  rw [download_file_plain env resp hhttp h206]

/-- C10 witness: the theorem applied at a concrete environment whose
metadata call fails over a 512-byte stale file; the full 1024-byte body
replaces it. -/
theorem metadata_failure_full_refetch_witness :
    process_file
        ⟨some 512, false, some "E", .ok "E", fun _ => .ok ⟨false, 1024⟩, true⟩
        "u" ⟨"f", 1024⟩
      = ([.headReq "u", .getReq "u" none], .ok 1024) :=
  metadata_failure_full_refetch
    ⟨some 512, false, some "E", .ok "E", fun _ => .ok ⟨false, 1024⟩, true⟩
    "u" ⟨"f", 1024⟩ "E" 512 ⟨false, 1024⟩ rfl rfl (by decide) rfl (by decide) rfl rfl

/-! ### Claim theorems: manifest sidecar lifecycle -/

theorem process_file_no_manifest (env : Env) (u : String) (gf : GgufFile) :
    Event.manifestWrite ∉ (process_file env u gf).1 := by
  unfold process_file
  split
  · simp
  · split
    · split
      · simp
      · simp
    · split
      · simp
      · simp

theorem download_model_go_no_manifest (fenv : String → Env) (endpoint : String)
    (r : ModelRef) :
    ∀ files : List GgufFile,
      Event.manifestWrite ∉ (download_model_go fenv endpoint r files).1 := by
  intro files
  induction files with
  | nil => simp [download_model_go]
  | cons gf rest ih =>
    unfold download_model_go
    rcases hp : process_file (fenv (cache_filename r gf.filename))
        (resolve_url endpoint r.repo gf.filename) gf with ⟨evs, res⟩
    have hevs : Event.manifestWrite ∉ evs := by
      have h := process_file_no_manifest (fenv (cache_filename r gf.filename))
        (resolve_url endpoint r.repo gf.filename) gf
      rw [hp] at h
      exact h
    cases res with
    | error e => simp only [hp]; exact hevs
    | ok sz =>
      simp only [hp]
      rcases hg : download_model_go fenv endpoint r rest with ⟨evs2, res2⟩
      simp only [hg]
      intro hm
      rcases List.mem_append.mp hm with h | h
      · exact hevs h
      · rw [hg] at ih
        exact ih h

/-- C2: the per-file phase of `download_model` never writes the manifest
sidecar (its event count is 0); the full invocation's trace is the per-file
trace followed by exactly one `manifestWrite` when every constituent file
succeeded, and by nothing when any file's probe or transfer failed — so the
sidecar write is performed exactly once, strictly after all files, and never
in a failing run. -/
theorem manifest_write_spec :
    ∀ (fenv : String → Env) (endpoint : String) (r : ModelRef) (mOk : Bool)
      (files : List GgufFile),
      (download_model_go fenv endpoint r files).1.count Event.manifestWrite = 0 ∧
      (download_model fenv endpoint r mOk files).1 =
        (download_model_go fenv endpoint r files).1 ++
          (match (download_model_go fenv endpoint r files).2 with
            | .ok _ => [Event.manifestWrite]
            | .error _ => []) ∧
      (download_model fenv endpoint r mOk files).1.count Event.manifestWrite =
        (match (download_model_go fenv endpoint r files).2 with
          | .ok _ => 1
          | .error _ => 0) := by
  intro fenv endpoint r mOk files
  have hgo : Event.manifestWrite ∉ (download_model_go fenv endpoint r files).1 :=
    download_model_go_no_manifest fenv endpoint r files
  have hcount : (download_model_go fenv endpoint r files).1.count Event.manifestWrite = 0 :=
    List.count_eq_zero.mpr hgo
  unfold download_model
  rcases hg : download_model_go fenv endpoint r files with ⟨evs, res⟩
  rw [hg] at hcount
  simp only at hcount
  refine ⟨hcount, ?_, ?_⟩
  · cases res with
    | error e => simp
    | ok szs => by_cases hm : mOk = true <;> simp [hm]
  · cases res with
    | error e => simpa using hcount
    | ok szs =>
      by_cases hm : mOk = true <;>
        simp [hm, List.count_append, hcount]

end Paca
